import Mathlib

/-!
Verification of the propositional Horn-rule inference service in `src/main.py`.

The file shallowly embeds the inference core:
  * `Rule`            — the pydantic `Rule` model (antecedents, consequent, description);
  * `forward_chain`   — the fixed-point saturation loop (`forwardStep` is one iteration of
                        the inner `for r in rules` loop, `forwardPass` one full pass,
                        `forwardLoop` the outer `while applied` loop);
  * `backward_chain`  — the depth-first goal search.  The Python function mutates one
                        `visited` set shared by reference across all recursive calls, so the
                        embedding threads the visited set through every call and returns it;
                        recursion is paced by a fuel parameter whose chosen value is proved
                        sufficient (`bcGoal_fuel_irrelevant`).
  * `diagnose_forward` — the `/diagnose/forward` route body (input normalisation, sorting,
                        fault filtering).

A Python trace entry `{"antecedents": …, "consequent": …, "description": …}` carries exactly
the three fields of the fired rule, so trace entries are represented by `Rule` itself.
-/

/-- The pydantic `Rule` model of `src/main.py`: a propositional Horn clause with a list of
antecedent atoms, one consequent atom and an optional human-readable description. -/
structure Rule where
  antecedents : List String
  consequent : String
  description : Option String := none
deriving DecidableEq

/-- Predicate: the set `S` is closed under every rule of `rules` — whenever all antecedents
of a rule lie in `S`, so does its consequent.  This is the closure property that
`forward_chain`'s saturation loop establishes. -/
def ruleClosed (rules : List Rule) (S : Finset String) : Prop :=
  ∀ r ∈ rules, (∀ a ∈ r.antecedents, a ∈ S) → r.consequent ∈ S

instance ruleClosedDecidable (rules : List Rule) (S : Finset String) :
    Decidable (ruleClosed rules S) := by
  unfold ruleClosed; infer_instance

/-- One step of the inner `for r in rules:` loop of `forward_chain` (src/main.py lines
69-78).  The state is `(known, trace, applied)`; if every antecedent of `r` is known and the
consequent is not, the consequent is added, a trace entry is appended and `applied` is set. -/
def forwardStep (st : Finset String × List Rule × Bool) (r : Rule) :
    Finset String × List Rule × Bool :=
  if (∀ a ∈ r.antecedents, a ∈ st.1) ∧ r.consequent ∉ st.1 then
    (insert r.consequent st.1, (st.2.1 ++ [r], true))
  else st

/-- One full pass of the `while applied:` loop of `forward_chain`: `applied` is reset to
`False`, then every rule is visited in list order. -/
def forwardPass (rules : List Rule) (known : Finset String) (trace : List Rule) :
    Finset String × List Rule × Bool :=
  rules.foldl forwardStep (known, (trace, false))

lemma forwardStep_known_mono (st : Finset String × List Rule × Bool) (r : Rule) :
    st.1 ⊆ (forwardStep st r).1 := by
  unfold forwardStep
  split
  · exact Finset.subset_insert _ _
  · exact Finset.Subset.refl _

lemma foldl_forwardStep_known_mono (rules : List Rule) (st : Finset String × List Rule × Bool) :
    st.1 ⊆ (rules.foldl forwardStep st).1 := by
  induction rules generalizing st with
  | nil => exact Finset.Subset.refl _
  | cons r rest ih =>
      exact Finset.Subset.trans (forwardStep_known_mono st r) (ih (forwardStep st r))

lemma forwardStep_known_univ (st : Finset String × List Rule × Bool) (r : Rule) :
    (forwardStep st r).1 ⊆ insert r.consequent st.1 := by
  unfold forwardStep
  split
  · exact Finset.Subset.refl _
  · exact Finset.subset_insert _ _

lemma foldl_forwardStep_known_univ (rules : List Rule) (st : Finset String × List Rule × Bool) :
    (rules.foldl forwardStep st).1 ⊆ st.1 ∪ (rules.map Rule.consequent).toFinset := by
  induction rules generalizing st with
  | nil => simp
  | cons r rest ih =>
      intro x hx
      have hx' := ih (forwardStep st r) hx
      simp only [List.map_cons, List.toFinset_cons]
      rcases Finset.mem_union.mp hx' with h1 | h2
      · rcases Finset.mem_insert.mp (forwardStep_known_univ st r h1) with h3 | h4
        · exact Finset.mem_union.mpr (Or.inr (Finset.mem_insert.mpr (Or.inl h3)))
        · exact Finset.mem_union.mpr (Or.inl h4)
      · exact Finset.mem_union.mpr (Or.inr (Finset.mem_insert.mpr (Or.inr h2)))

lemma forwardStep_applied_mono (st : Finset String × List Rule × Bool) (r : Rule)
    (h : st.2.2 = true) : (forwardStep st r).2.2 = true := by
  unfold forwardStep
  split
  · rfl
  · exact h

lemma foldl_forwardStep_applied_mono (rules : List Rule) (st : Finset String × List Rule × Bool)
    (h : st.2.2 = true) : (rules.foldl forwardStep st).2.2 = true := by
  induction rules generalizing st with
  | nil => exact h
  | cons r rest ih => exact ih _ (forwardStep_applied_mono st r h)

/-- If a pass starts with `applied = false` and ends with `applied = true`, some rule fired,
so the known set strictly grew. -/
lemma foldl_forwardStep_growth (rules : List Rule) (st : Finset String × List Rule × Bool)
    (h0 : st.2.2 = false) (h1 : (rules.foldl forwardStep st).2.2 = true) :
    st.1 ⊂ (rules.foldl forwardStep st).1 := by
  induction rules generalizing st with
  | nil => simp only [List.foldl_nil] at h1; rw [h0] at h1; cases h1
  | cons r rest ih =>
      by_cases hc : (∀ a ∈ r.antecedents, a ∈ st.1) ∧ r.consequent ∉ st.1
      · have hstep : forwardStep st r = (insert r.consequent st.1, (st.2.1 ++ [r], true)) := by
          unfold forwardStep; rw [if_pos hc]
        constructor
        · exact Finset.Subset.trans (forwardStep_known_mono st r)
            (foldl_forwardStep_known_mono rest _)
        · intro hsub
          apply hc.2
          apply hsub
          have : r.consequent ∈ (forwardStep st r).1 := by
            rw [hstep]; exact Finset.mem_insert_self _ _
          exact foldl_forwardStep_known_mono rest (forwardStep st r) this
      · have hstep : forwardStep st r = st := by
          unfold forwardStep; rw [if_neg hc]
        simp only [List.foldl_cons, hstep] at h1 ⊢
        exact ih st h0 h1

/-- If a pass ends with `applied = false`, it started with `applied = false`, changed
nothing, and every rule is satisfied by the known set. -/
lemma foldl_forwardStep_stable (rules : List Rule) (st : Finset String × List Rule × Bool)
    (h : (rules.foldl forwardStep st).2.2 = false) :
    rules.foldl forwardStep st = st ∧
      ∀ r ∈ rules, (∀ a ∈ r.antecedents, a ∈ st.1) → r.consequent ∈ st.1 := by
  induction rules generalizing st with
  | nil => exact ⟨rfl, by intro r hr; cases hr⟩
  | cons r rest ih =>
      by_cases hc : (∀ a ∈ r.antecedents, a ∈ st.1) ∧ r.consequent ∉ st.1
      · exfalso
        have hstep : (forwardStep st r).2.2 = true := by
          unfold forwardStep; rw [if_pos hc]
        have := foldl_forwardStep_applied_mono rest (forwardStep st r) hstep
        simp only [List.foldl_cons] at h
        rw [this] at h; cases h
      · have hstep : forwardStep st r = st := by
          unfold forwardStep; rw [if_neg hc]
        simp only [List.foldl_cons, hstep] at h ⊢
        obtain ⟨heq, hsat⟩ := ih st h
        refine ⟨heq, ?_⟩
        intro r' hr' hante
        rcases List.mem_cons.mp hr' with h1 | h2
        · subst h1
          by_contra hnot
          exact hc ⟨hante, hnot⟩
        · exact hsat r' h2 hante

/-- Every fact a pass adds is justified: the fold keeps the known set inside any superset of
the start state closed under the rules of the list. -/
lemma foldl_forwardStep_minimal (rules : List Rule) (st : Finset String × List Rule × Bool)
    (S : Finset String) (hcl : ∀ r ∈ rules, (∀ a ∈ r.antecedents, a ∈ S) → r.consequent ∈ S)
    (hsub : st.1 ⊆ S) : (rules.foldl forwardStep st).1 ⊆ S := by
  induction rules generalizing st with
  | nil => exact hsub
  | cons r rest ih =>
      simp only [List.foldl_cons]
      apply ih (forwardStep st r)
      · intro r' hr'; exact hcl r' (List.mem_cons_of_mem _ hr')
      · by_cases hc : (∀ a ∈ r.antecedents, a ∈ st.1) ∧ r.consequent ∉ st.1
        · have hstep : forwardStep st r = (insert r.consequent st.1, (st.2.1 ++ [r], true)) := by
            unfold forwardStep; rw [if_pos hc]
          rw [hstep]
          apply Finset.insert_subset
          · exact hcl r (List.mem_cons_self _ _) fun a ha => hsub (hc.1 a ha)
          · exact hsub
        · have hstep : forwardStep st r = st := by
            unfold forwardStep; rw [if_neg hc]
          rw [hstep]; exact hsub

/-- The termination measure of the outer loop: the consequents not yet known. -/
lemma forwardPass_measure (rules : List Rule) (known : Finset String) (trace : List Rule)
    (h : (forwardPass rules known trace).2.2 = true) :
    ((rules.map Rule.consequent).toFinset \ (forwardPass rules known trace).1).card <
      ((rules.map Rule.consequent).toFinset \ known).card := by
  apply Finset.card_lt_card
  have hgrow := foldl_forwardStep_growth rules (known, (trace, false)) rfl h
  have hmono : known ⊆ (forwardPass rules known trace).1 := hgrow.1
  obtain ⟨c, hcmem, hcnot⟩ := Finset.exists_of_ssubset hgrow
  have hcuniv : c ∈ known ∪ (rules.map Rule.consequent).toFinset :=
    foldl_forwardStep_known_univ rules (known, (trace, false)) hcmem
  have hccons : c ∈ (rules.map Rule.consequent).toFinset := by
    rcases Finset.mem_union.mp hcuniv with h1 | h2
    · exact absurd h1 hcnot
    · exact h2
  constructor
  · intro x hx
    rcases Finset.mem_sdiff.mp hx with ⟨hx1, hx2⟩
    exact Finset.mem_sdiff.mpr ⟨hx1, fun hk => hx2 (hmono hk)⟩
  · intro hsub
    have : c ∈ (rules.map Rule.consequent).toFinset \ (forwardPass rules known trace).1 :=
      hsub (Finset.mem_sdiff.mpr ⟨hccons, hcnot⟩)
    exact (Finset.mem_sdiff.mp this).2 hcmem

/-- The outer `while applied:` loop of `forward_chain` (src/main.py lines 66-78), paced by a
fuel parameter so that the definition computes by kernel reduction.
`forwardLoopFuel_stable` proves that any fuel exceeding the number of not-yet-known distinct
consequents gives the same result, so the loop is faithful to the unbounded `while` loop. -/
def forwardLoopFuel : Nat → List Rule → Finset String → List Rule → Finset String × List Rule
  | 0, _, known, trace => (known, trace)
  | fuel + 1, rules, known, trace =>
      match forwardPass rules known trace with
      | (known2, (trace2, applied)) =>
          if applied = true then forwardLoopFuel fuel rules known2 trace2
          else (known2, trace2)

/-- Unfolding of one pass of the loop, in projection form. -/
lemma forwardLoopFuel_succ (fuel : Nat) (rules : List Rule) (known : Finset String)
    (trace : List Rule) :
    forwardLoopFuel (fuel + 1) rules known trace =
      if (forwardPass rules known trace).2.2 = true then
        forwardLoopFuel fuel rules (forwardPass rules known trace).1
          (forwardPass rules known trace).2.1
      else ((forwardPass rules known trace).1, (forwardPass rules known trace).2.1) := by
  rcases hres : forwardPass rules known trace with ⟨known2, trace2, applied⟩
  rw [forwardLoopFuel, hres]

/-- Any two sufficient fuels give the same result: the loop has stabilized. -/
lemma forwardLoopFuel_stable (rules : List Rule) :
    ∀ fuel₁ fuel₂ known trace,
      ((rules.map Rule.consequent).toFinset \ known).card < fuel₁ →
      ((rules.map Rule.consequent).toFinset \ known).card < fuel₂ →
      forwardLoopFuel fuel₁ rules known trace = forwardLoopFuel fuel₂ rules known trace := by
  intro fuel₁
  induction fuel₁ with
  | zero => intro fuel₂ known trace h1 _; omega
  | succ f ih =>
      intro fuel₂ known trace h1 h2
      cases fuel₂ with
      | zero => omega
      | succ f₂ =>
          by_cases hap : (forwardPass rules known trace).2.2 = true
          · have hm := forwardPass_measure rules known trace hap
            show forwardLoopFuel (f + 1) rules known trace =
              forwardLoopFuel (f₂ + 1) rules known trace
            rw [forwardLoopFuel_succ, forwardLoopFuel_succ, if_pos hap, if_pos hap]
            exact ih f₂ _ _ (by omega) (by omega)
          · show forwardLoopFuel (f + 1) rules known trace =
              forwardLoopFuel (f₂ + 1) rules known trace
            rw [forwardLoopFuel_succ, forwardLoopFuel_succ, if_neg hap, if_neg hap]

/-- `forward_chain` of src/main.py lines 59-79: saturate the input facts under the rules,
returning the known set and the firing trace.  The fuel `(consequents \ facts).card + 1`
bounds the number of passes of the `while` loop and is sufficient by
`forwardLoopFuel_stable` together with `forwardPass_measure`. -/
def forward_chain (facts : Finset String) (rules : List Rule) : Finset String × List Rule :=
  forwardLoopFuel (((rules.map Rule.consequent).toFinset \ facts).card + 1) rules facts []

lemma forwardLoopFuel_known_mono (rules : List Rule) :
    ∀ fuel known trace, known ⊆ (forwardLoopFuel fuel rules known trace).1 := by
  intro fuel
  induction fuel with
  | zero => intro known trace; exact Finset.Subset.refl _
  | succ f ih =>
      intro known trace
      have hpass : known ⊆ (forwardPass rules known trace).1 :=
        foldl_forwardStep_known_mono rules (known, (trace, false))
      rw [forwardLoopFuel_succ]
      by_cases hap : (forwardPass rules known trace).2.2 = true
      · rw [if_pos hap]
        exact Finset.Subset.trans hpass (ih _ _)
      · rw [if_neg hap]
        exact hpass

/-- With sufficient fuel the loop exits only when a pass fires nothing, so the final known
set satisfies every rule. -/
lemma forwardLoopFuel_closed (rules : List Rule) :
    ∀ fuel known trace, ((rules.map Rule.consequent).toFinset \ known).card < fuel →
      ruleClosed rules (forwardLoopFuel fuel rules known trace).1 := by
  intro fuel
  induction fuel with
  | zero => intro known trace h; omega
  | succ f ih =>
      intro known trace h
      rw [forwardLoopFuel_succ]
      by_cases hap : (forwardPass rules known trace).2.2 = true
      · rw [if_pos hap]
        have hm := forwardPass_measure rules known trace hap
        exact ih _ _ (by omega)
      · rw [if_neg hap]
        have hap' : (forwardPass rules known trace).2.2 = false := by
          cases hb : (forwardPass rules known trace).2.2
          · rfl
          · exact absurd hb hap
        obtain ⟨heq, hsat⟩ :=
          foldl_forwardStep_stable rules (known, (trace, false)) hap'
        intro r hr hante
        have hfix : (forwardPass rules known trace).1 = known := by
          unfold forwardPass; rw [heq]
        rw [hfix] at hante ⊢
        exact hsat r hr hante

lemma forwardLoopFuel_minimal (rules : List Rule) (S : Finset String)
    (hcl : ruleClosed rules S) :
    ∀ fuel known trace, known ⊆ S → (forwardLoopFuel fuel rules known trace).1 ⊆ S := by
  intro fuel
  induction fuel with
  | zero => intro known trace h; exact h
  | succ f ih =>
      intro known trace h
      have hpass : (forwardPass rules known trace).1 ⊆ S :=
        foldl_forwardStep_minimal rules (known, (trace, false)) S hcl h
      rw [forwardLoopFuel_succ]
      by_cases hap : (forwardPass rules known trace).2.2 = true
      · rw [if_pos hap]; exact ih _ _ hpass
      · rw [if_neg hap]; exact hpass

lemma forward_chain_facts_subset (facts : Finset String) (rules : List Rule) :
    facts ⊆ (forward_chain facts rules).1 :=
  forwardLoopFuel_known_mono rules _ facts []

lemma forward_chain_closed (facts : Finset String) (rules : List Rule) :
    ruleClosed rules (forward_chain facts rules).1 :=
  forwardLoopFuel_closed rules _ facts [] (Nat.lt_succ_self _)

lemma forward_chain_minimal (facts : Finset String) (rules : List Rule) (S : Finset String)
    (hS : facts ⊆ S) (hcl : ruleClosed rules S) : (forward_chain facts rules).1 ⊆ S :=
  forwardLoopFuel_minimal rules S hcl _ facts [] hS

/-- `ruleClosed` only depends on which rules belong to the list. -/
lemma ruleClosed_of_subset (rules rules' : List Rule) (S : Finset String)
    (hsub : ∀ r ∈ rules, r ∈ rules') (h : ruleClosed rules' S) : ruleClosed rules S :=
  fun r hr => h r (hsub r hr)

/-- The derived set only grows when rules are added. -/
lemma forward_chain_rules_mono (facts : Finset String) (rules rules' : List Rule)
    (hsub : ∀ r ∈ rules, r ∈ rules') :
    (forward_chain facts rules).1 ⊆ (forward_chain facts rules').1 :=
  forward_chain_minimal facts rules _ (forward_chain_facts_subset facts rules')
    (ruleClosed_of_subset rules rules' _ hsub (forward_chain_closed facts rules'))

/-- Reordering the rule list leaves the derived set unchanged. -/
lemma forward_chain_perm (facts : Finset String) (rules rules' : List Rule)
    (hperm : rules.Perm rules') :
    (forward_chain facts rules).1 = (forward_chain facts rules').1 :=
  Finset.Subset.antisymm
    (forward_chain_rules_mono facts rules rules' fun _r hr => hperm.mem_iff.mp hr)
    (forward_chain_rules_mono facts rules' rules fun _r hr => hperm.mem_iff.mpr hr)

/-- Number of fact-adding passes the `while` loop performs, paced by the same fuel as
`forward_chain`; `forwardPassCountFuel_le` shows the count is below any fuel bound. -/
def forwardPassCountFuel : Nat → List Rule → Finset String → Nat
  | 0, _, _ => 0
  | fuel + 1, rules, known =>
      match forwardPass rules known [] with
      | (known2, (_, applied)) =>
          if applied = true then forwardPassCountFuel fuel rules known2 + 1
          else 0

/-- Unfolding of one pass of the counter, in projection form. -/
lemma forwardPassCountFuel_succ (fuel : Nat) (rules : List Rule) (known : Finset String) :
    forwardPassCountFuel (fuel + 1) rules known =
      if (forwardPass rules known []).2.2 = true then
        forwardPassCountFuel fuel rules (forwardPass rules known []).1 + 1
      else 0 := by
  rcases hres : forwardPass rules known [] with ⟨known2, trace2, applied⟩
  rw [forwardPassCountFuel, hres]

/-- At any fuel, the number of fact-adding passes is bounded by the number of distinct
consequents not yet known. -/
lemma forwardPassCountFuel_le (rules : List Rule) :
    ∀ fuel known, forwardPassCountFuel fuel rules known ≤
      ((rules.map Rule.consequent).toFinset \ known).card := by
  intro fuel
  induction fuel with
  | zero => intro known; exact Nat.zero_le _
  | succ f ih =>
      intro known
      rw [forwardPassCountFuel_succ]
      by_cases hap : (forwardPass rules known []).2.2 = true
      · rw [if_pos hap]
        have hm := forwardPass_measure rules known [] hap
        have := ih (forwardPass rules known []).1
        omega
      · rw [if_neg hap]; exact Nat.zero_le _

/-- The pass counter of `forward_chain`'s `while` loop, at the sufficient fuel. -/
def forwardPassCount (rules : List Rule) (known : Finset String) : Nat :=
  forwardPassCountFuel (((rules.map Rule.consequent).toFinset \ known).card + 1) rules known

/-- The invariant tying `known` to the trace: the known set is the input facts plus the
trace's consequents, the trace's consequents are pairwise distinct, and none of them is an
input fact. -/
def traceInv (facts : Finset String) (st : Finset String × List Rule × Bool) : Prop :=
  st.1 = facts ∪ (st.2.1.map Rule.consequent).toFinset ∧
    (st.2.1.map Rule.consequent).Nodup ∧
    ∀ r ∈ st.2.1, r.consequent ∉ facts

lemma forwardStep_traceInv (facts : Finset String) (st : Finset String × List Rule × Bool)
    (r : Rule) (h : traceInv facts st) : traceInv facts (forwardStep st r) := by
  obtain ⟨hknown, hnd, hnf⟩ := h
  unfold forwardStep
  by_cases hc : (∀ a ∈ r.antecedents, a ∈ st.1) ∧ r.consequent ∉ st.1
  · rw [if_pos hc]
    have hcf : r.consequent ∉ facts := fun hmem =>
      hc.2 (by rw [hknown]; exact Finset.mem_union.mpr (Or.inl hmem))
    have hct : r.consequent ∉ st.2.1.map Rule.consequent := fun hmem =>
      hc.2 (by rw [hknown]; exact Finset.mem_union.mpr (Or.inr (List.mem_toFinset.mpr hmem)))
    refine ⟨?_, ?_, ?_⟩
    · show insert r.consequent st.1 =
        facts ∪ (((st.2.1 ++ [r]).map Rule.consequent).toFinset)
      rw [hknown]
      ext x
      simp [or_assoc, or_comm, or_left_comm]
    · show ((st.2.1 ++ [r]).map Rule.consequent).Nodup
      rw [List.map_append]
      simp only [List.map_cons, List.map_nil]
      rw [List.nodup_append]
      exact ⟨hnd, List.nodup_singleton _, by simpa using hct⟩
    · intro r' hr'
      rcases List.mem_append.mp hr' with h1 | h2
      · exact hnf r' h1
      · rw [List.mem_singleton.mp h2]; exact hcf
  · rw [if_neg hc]; exact ⟨hknown, hnd, hnf⟩

lemma foldl_forwardStep_traceInv (facts : Finset String) (rules : List Rule)
    (st : Finset String × List Rule × Bool) (h : traceInv facts st) :
    traceInv facts (rules.foldl forwardStep st) := by
  induction rules generalizing st with
  | nil => exact h
  | cons r rest ih => exact ih _ (forwardStep_traceInv facts st r h)

lemma forwardLoopFuel_traceInv (facts : Finset String) (rules : List Rule) :
    ∀ fuel known trace, traceInv facts (known, (trace, false)) →
      traceInv facts ((forwardLoopFuel fuel rules known trace).1,
        ((forwardLoopFuel fuel rules known trace).2, false)) := by
  intro fuel
  induction fuel with
  | zero => intro known trace h; exact h
  | succ f ih =>
      intro known trace h
      have hpass : traceInv facts (forwardPass rules known trace) :=
        foldl_forwardStep_traceInv facts rules (known, (trace, false)) h
      have hpass' : traceInv facts
          ((forwardPass rules known trace).1, ((forwardPass rules known trace).2.1, false)) :=
        ⟨hpass.1, hpass.2.1, hpass.2.2⟩
      rw [forwardLoopFuel_succ]
      by_cases hap : (forwardPass rules known trace).2.2 = true
      · rw [if_pos hap]
        exact ih _ _ hpass'
      · rw [if_neg hap]
        exact hpass'

lemma forward_chain_traceInv (facts : Finset String) (rules : List Rule) :
    traceInv facts ((forward_chain facts rules).1, ((forward_chain facts rules).2, false)) :=
  forwardLoopFuel_traceInv facts rules _ facts [] (by simp [traceInv])

/-- A proof step produced by `backward_chain` (src/main.py lines 82-126).  Each Python step
dict has a `goal` and a `type` field; an `inferred` step additionally carries the rule used
(`using`) and the concatenated subproofs of its antecedents (`subproof`). -/
inductive ProofStep where
  | given (goal : String)
  | cycle (goal : String)
  | inferred (goal : String) (usedRule : Rule) (subproof : List ProofStep)
  | notProvable (goal : String)
deriving Inhabited

/-- The `goal` field of a proof step. -/
def stepGoal : ProofStep → String
  | .given g => g
  | .cycle g => g
  | .inferred g _ _ => g
  | .notProvable g => g

/-- The `type` field of a proof step, as the string stored in the Python dict. -/
def stepTypeName : ProofStep → String
  | .given _ => "given"
  | .cycle _ => "cycle"
  | .inferred _ _ _ => "inferred"
  | .notProvable _ => "not-provable"

/-- The antecedent loop of `backward_chain` (src/main.py lines 103-110): prove each subgoal
in order with the recursive prover `bc`, extending the shared visited set through every call
(the Python `visited` set is one object mutated in place), concatenating the returned steps,
and short-circuiting on the first failing subgoal. -/
def bcAnte (bc : String → Finset String → Bool × List ProofStep × Finset String) :
    List String → Finset String → Bool × List ProofStep × Finset String
  | [], visited => (true, ([], visited))
  | g :: gs, visited =>
      match bc g visited with
      | (true, (proof, v2)) =>
          match bcAnte bc gs v2 with
          | (ok, (rest, v3)) => (ok, (proof ++ rest, v3))
      | (false, (proof, v2)) => (false, (proof, v2))

/-- Unfolding of one antecedent of the loop, in projection form. -/
lemma bcAnte_cons (bc : String → Finset String → Bool × List ProofStep × Finset String)
    (g : String) (gs : List String) (visited : Finset String) :
    bcAnte bc (g :: gs) visited =
      if (bc g visited).1 = true then
        ((bcAnte bc gs (bc g visited).2.2).1,
         ((bc g visited).2.1 ++ (bcAnte bc gs (bc g visited).2.2).2.1,
          (bcAnte bc gs (bc g visited).2.2).2.2))
      else (false, ((bc g visited).2.1, (bc g visited).2.2)) := by
  rcases hres : bc g visited with ⟨ok, proof, v2⟩
  cases ok
  · rw [bcAnte, hres]
    simp [hres]
  · rw [bcAnte, hres]
    rcases hrest : bcAnte bc gs v2 with ⟨ok2, rest2, v3⟩
    simp [hres, hrest]

/-- The candidate-rule loop of `backward_chain` (src/main.py lines 101-123): try each rule
concluding the goal in list order; the first rule whose antecedents all prove yields an
`inferred` step; if none does, the result is a `not-provable` step (line 126).  The visited
set coming out of a failed attempt is carried into the next attempt, exactly as the shared
Python set is. -/
def bcRules (bc : String → Finset String → Bool × List ProofStep × Finset String)
    (goal : String) : List Rule → Finset String → Bool × List ProofStep × Finset String
  | [], visited => (false, ([ProofStep.notProvable goal], visited))
  | r :: rest, visited =>
      match bcAnte bc r.antecedents visited with
      | (true, (subproof, v2)) => (true, ([ProofStep.inferred goal r subproof], v2))
      | (false, (_, v2)) => bcRules bc goal rest v2

/-- Unfolding of one candidate rule of the loop, in projection form. -/
lemma bcRules_cons (bc : String → Finset String → Bool × List ProofStep × Finset String)
    (goal : String) (r : Rule) (rest : List Rule) (visited : Finset String) :
    bcRules bc goal (r :: rest) visited =
      if (bcAnte bc r.antecedents visited).1 = true then
        (true, ([ProofStep.inferred goal r (bcAnte bc r.antecedents visited).2.1],
          (bcAnte bc r.antecedents visited).2.2))
      else bcRules bc goal rest (bcAnte bc r.antecedents visited).2.2 := by
  rcases hres : bcAnte bc r.antecedents visited with ⟨ok, subproof, v2⟩
  cases ok
  · rw [bcRules, hres]
    simp [hres]
  · rw [bcRules, hres]
    simp [hres]

/-- The recursive core of `backward_chain` (src/main.py lines 82-126), paced by a fuel
parameter; `bcGoal_fuel_irrelevant` proves any fuel of at least
`(insert goal (atomUniverse rules) \ visited).card` gives the same result, so the chosen
fuel is faithful to the unbounded Python recursion.  Branches in order: a goal among the
facts is `given`; a goal already in the shared visited set is a `cycle`; otherwise the goal
is added to the visited set and the rules whose consequent is the goal are tried. -/
def bcGoal (rules : List Rule) (facts : Finset String) :
    Nat → String → Finset String → Bool × List ProofStep × Finset String
  | 0, _, visited => (false, ([], visited))
  | fuel + 1, goal, visited =>
      if goal ∈ facts then (true, ([ProofStep.given goal], visited))
      else if goal ∈ visited then (false, ([ProofStep.cycle goal], visited))
      else
        bcRules (fun g v => bcGoal rules facts fuel g v) goal
          (rules.filter fun r => r.consequent = goal) (insert goal visited)

/-- All atoms a recursive call of `backward_chain` can be invoked on: the antecedents of the
rules.  Together with the top-level goal this bounds the visited set and hence the
recursion depth. -/
def atomUniverse (rules : List Rule) : Finset String :=
  (rules.map Rule.antecedents).flatten.toFinset

/-- `backward_chain` of src/main.py lines 82-126, at the top-level call where the shared
visited set starts empty (`visited = None` default).  Returns `(provable, proof)`; the
visited set is internal state.  The fuel `(insert goal (atomUniverse rules)).card + 1` is
sufficient by `bcGoal_fuel_irrelevant`. -/
def backward_chain (goal : String) (facts : Finset String) (rules : List Rule) :
    Bool × List ProofStep :=
  ((bcGoal rules facts ((insert goal (atomUniverse rules)).card + 1) goal ∅).1,
   (bcGoal rules facts ((insert goal (atomUniverse rules)).card + 1) goal ∅).2.1)

/-- Rules recorded in `inferred` steps, from the whole tree. -/
def collectRules : List ProofStep → List Rule
  | [] => []
  | ProofStep.inferred _ r sp :: rest => r :: (collectRules sp ++ collectRules rest)
  | ProofStep.given _ :: rest => collectRules rest
  | ProofStep.cycle _ :: rest => collectRules rest
  | ProofStep.notProvable _ :: rest => collectRules rest

/-- Does any step of the tree (subproofs included) have type `cycle`? -/
def hasCycleStep : List ProofStep → Bool
  | [] => false
  | ProofStep.cycle _ :: _ => true
  | ProofStep.inferred _ _ sp :: rest => hasCycleStep sp || hasCycleStep rest
  | ProofStep.given _ :: rest => hasCycleStep rest
  | ProofStep.notProvable _ :: rest => hasCycleStep rest

lemma bcAnte_visited_mono (bc : String → Finset String → Bool × List ProofStep × Finset String)
    (hbc : ∀ g v, v ⊆ (bc g v).2.2) :
    ∀ gs visited, visited ⊆ (bcAnte bc gs visited).2.2 := by
  intro gs
  induction gs with
  | nil => intro visited; exact Finset.Subset.refl _
  | cons g gs ih =>
      intro visited
      rw [bcAnte_cons]
      by_cases h : (bc g visited).1 = true
      · rw [if_pos h]
        exact Finset.Subset.trans (hbc g visited) (ih _)
      · rw [if_neg h]
        exact hbc g visited

lemma bcRules_visited_mono (bc : String → Finset String → Bool × List ProofStep × Finset String)
    (hbc : ∀ g v, v ⊆ (bc g v).2.2) (goal : String) :
    ∀ cands visited, visited ⊆ (bcRules bc goal cands visited).2.2 := by
  intro cands
  induction cands with
  | nil => intro visited; exact Finset.Subset.refl _
  | cons r rest ih =>
      intro visited
      rw [bcRules_cons]
      by_cases h : (bcAnte bc r.antecedents visited).1 = true
      · rw [if_pos h]
        exact bcAnte_visited_mono bc hbc r.antecedents visited
      · rw [if_neg h]
        exact Finset.Subset.trans (bcAnte_visited_mono bc hbc r.antecedents visited) (ih _)

/-- The shared visited set only ever grows: no call of `backward_chain`'s recursion removes
an entry. -/
lemma bcGoal_visited_mono (rules : List Rule) (facts : Finset String) :
    ∀ fuel goal visited, visited ⊆ (bcGoal rules facts fuel goal visited).2.2 := by
  intro fuel
  induction fuel with
  | zero => intro goal visited; exact Finset.Subset.refl _
  | succ f ih =>
      intro goal visited
      rw [bcGoal]
      by_cases h1 : goal ∈ facts
      · rw [if_pos h1]
      · rw [if_neg h1]
        by_cases h2 : goal ∈ visited
        · rw [if_pos h2]
        · rw [if_neg h2]
          exact Finset.Subset.trans (Finset.subset_insert _ _)
            (bcRules_visited_mono _ (fun g v => ih g v) goal _ _)

lemma bcAnte_congr (bc bc' : String → Finset String → Bool × List ProofStep × Finset String)
    (v0 : Finset String) (hbc : ∀ g v, v ⊆ (bc g v).2.2) :
    ∀ gs, (∀ g ∈ gs, ∀ v, v0 ⊆ v → bc g v = bc' g v) →
      ∀ v, v0 ⊆ v → bcAnte bc gs v = bcAnte bc' gs v := by
  intro gs
  induction gs with
  | nil => intro _ v _; rfl
  | cons g gs ih =>
      intro h v hv
      have heq : bc g v = bc' g v := h g (List.mem_cons_self g gs) v hv
      have hv' : v0 ⊆ (bc g v).2.2 := Finset.Subset.trans hv (hbc g v)
      have hrest : bcAnte bc gs (bc g v).2.2 = bcAnte bc' gs (bc g v).2.2 :=
        ih (fun g' hg' => h g' (List.mem_cons_of_mem g hg')) _ hv'
      rw [bcAnte_cons, bcAnte_cons, ← heq, hrest]

lemma bcRules_congr (bc bc' : String → Finset String → Bool × List ProofStep × Finset String)
    (v0 : Finset String) (hbc : ∀ g v, v ⊆ (bc g v).2.2) (goal : String) :
    ∀ cands, (∀ r ∈ cands, ∀ g ∈ r.antecedents, ∀ v, v0 ⊆ v → bc g v = bc' g v) →
      ∀ v, v0 ⊆ v → bcRules bc goal cands v = bcRules bc' goal cands v := by
  intro cands
  induction cands with
  | nil => intro _ v _; rfl
  | cons r rest ih =>
      intro h v hv
      have hante : bcAnte bc r.antecedents v = bcAnte bc' r.antecedents v :=
        bcAnte_congr bc bc' v0 hbc r.antecedents (h r (List.mem_cons_self r rest)) v hv
      have hv' : v0 ⊆ (bcAnte bc r.antecedents v).2.2 :=
        Finset.Subset.trans hv (bcAnte_visited_mono bc hbc r.antecedents v)
      have hrest := ih (fun r' hr' => h r' (List.mem_cons_of_mem r hr')) _ hv'
      rw [bcRules_cons, bcRules_cons, ← hante, hrest]

lemma mem_atomUniverse (rules : List Rule) (r : Rule) (hr : r ∈ rules) (g : String)
    (hg : g ∈ r.antecedents) : g ∈ atomUniverse rules := by
  unfold atomUniverse
  rw [List.mem_toFinset, List.mem_flatten]
  exact ⟨r.antecedents, List.mem_map_of_mem Rule.antecedents hr, hg⟩

lemma bc_measure_drop (U visited : Finset String) (goal : String) (hg : goal ∉ visited) :
    (U \ insert goal visited).card + 1 ≤ ((insert goal U) \ visited).card := by
  have h1 : insert goal (U \ insert goal visited) ⊆ (insert goal U) \ visited := by
    intro x hx
    rcases Finset.mem_insert.mp hx with h | h
    · subst h; exact Finset.mem_sdiff.mpr ⟨Finset.mem_insert_self _ _, hg⟩
    · rcases Finset.mem_sdiff.mp h with ⟨h2, h3⟩
      exact Finset.mem_sdiff.mpr
        ⟨Finset.mem_insert_of_mem h2, fun hv => h3 (Finset.mem_insert_of_mem hv)⟩
  have h2 : goal ∉ U \ insert goal visited := fun hmem =>
    (Finset.mem_sdiff.mp hmem).2 (Finset.mem_insert_self _ _)
  calc (U \ insert goal visited).card + 1
      = (insert goal (U \ insert goal visited)).card :=
        (Finset.card_insert_of_not_mem h2).symm
    _ ≤ ((insert goal U) \ visited).card := Finset.card_le_card h1

/-- Fuel stability: any two fuels above the number of provably reachable unvisited atoms
give the same result, because every level of recursion permanently adds its goal to the
shared visited set.  This is the termination argument of `backward_chain` — bounded
recursion depth — in shallow form. -/
lemma bcGoal_stable (rules : List Rule) (facts : Finset String) :
    ∀ fuel₁ fuel₂ goal visited,
      ((insert goal (atomUniverse rules)) \ visited).card + 1 ≤ fuel₁ →
      ((insert goal (atomUniverse rules)) \ visited).card + 1 ≤ fuel₂ →
      bcGoal rules facts fuel₁ goal visited = bcGoal rules facts fuel₂ goal visited := by
  intro fuel₁
  induction fuel₁ with
  | zero => intro fuel₂ goal visited h1 _; omega
  | succ f ih =>
      intro fuel₂ goal visited h1 h2
      cases fuel₂ with
      | zero => omega
      | succ f₂ =>
          rw [bcGoal, bcGoal]
          by_cases hf : goal ∈ facts
          · rw [if_pos hf, if_pos hf]
          · rw [if_neg hf, if_neg hf]
            by_cases hv : goal ∈ visited
            · rw [if_pos hv, if_pos hv]
            · rw [if_neg hv, if_neg hv]
              apply bcRules_congr _ _ (insert goal visited)
                (fun g v => bcGoal_visited_mono rules facts f g v) goal
              · intro r hr g hg v hsub
                have hgU : g ∈ atomUniverse rules :=
                  mem_atomUniverse rules r (List.mem_filter.mp hr).1 g hg
                have hUeq : insert g (atomUniverse rules) = atomUniverse rules :=
                  Finset.insert_eq_self.mpr hgU
                have hdrop := bc_measure_drop (atomUniverse rules) visited goal hv
                have hmono : (atomUniverse rules) \ v ⊆
                    (atomUniverse rules) \ insert goal visited :=
                  Finset.sdiff_subset_sdiff (Finset.Subset.refl _) hsub
                have hcard : ((insert g (atomUniverse rules)) \ v).card + 1 ≤
                    ((insert goal (atomUniverse rules)) \ visited).card := by
                  rw [hUeq]
                  have := Finset.card_le_card hmono
                  omega
                exact ih f₂ g v (by omega) (by omega)
              · exact Finset.Subset.refl _

/-- The fuel chosen in `backward_chain` is sufficient: every at-least-as-large fuel gives
the same result, so the bounded recursion agrees with the unbounded Python recursion. -/
lemma bcGoal_fuel_irrelevant (rules : List Rule) (facts : Finset String) (goal : String)
    (fuel : Nat) (h : (insert goal (atomUniverse rules)).card + 1 ≤ fuel) :
    bcGoal rules facts fuel goal ∅ =
      bcGoal rules facts ((insert goal (atomUniverse rules)).card + 1) goal ∅ := by
  refine bcGoal_stable rules facts fuel _ goal ∅ ?_ ?_
  · rw [Finset.sdiff_empty]
    omega
  · rw [Finset.sdiff_empty]

lemma bcRules_shape (bc : String → Finset String → Bool × List ProofStep × Finset String)
    (goal : String) :
    ∀ cands visited, ∃ s, (bcRules bc goal cands visited).2.1 = [s] ∧ stepGoal s = goal := by
  intro cands
  induction cands with
  | nil =>
      intro visited
      exact ⟨ProofStep.notProvable goal, rfl, rfl⟩
  | cons r rest ih =>
      intro visited
      rw [bcRules_cons]
      by_cases h : (bcAnte bc r.antecedents visited).1 = true
      · rw [if_pos h]
        exact ⟨ProofStep.inferred goal r (bcAnte bc r.antecedents visited).2.1, rfl, rfl⟩
      · rw [if_neg h]
        exact ih _

/-- At any positive fuel, every call of `backward_chain`'s recursion returns a proof list of
exactly one step, whose `goal` field is the queried goal. -/
lemma bcGoal_shape (rules : List Rule) (facts : Finset String) (fuel : Nat) (goal : String)
    (visited : Finset String) (h : 1 ≤ fuel) :
    ∃ s, (bcGoal rules facts fuel goal visited).2.1 = [s] ∧ stepGoal s = goal := by
  cases fuel with
  | zero => omega
  | succ f =>
      rw [bcGoal]
      by_cases h1 : goal ∈ facts
      · rw [if_pos h1]; exact ⟨ProofStep.given goal, rfl, rfl⟩
      · rw [if_neg h1]
        by_cases h2 : goal ∈ visited
        · rw [if_pos h2]; exact ⟨ProofStep.cycle goal, rfl, rfl⟩
        · rw [if_neg h2]
          exact bcRules_shape _ goal _ _

lemma collectRules_append (l1 l2 : List ProofStep) :
    collectRules (l1 ++ l2) = collectRules l1 ++ collectRules l2 := by
  induction l1 with
  | nil => simp [collectRules]
  | cons s rest ih =>
      cases s with
      | given g => simpa [collectRules] using ih
      | cycle g => simpa [collectRules] using ih
      | notProvable g => simpa [collectRules] using ih
      | inferred g r sp => simp [collectRules, ih]

/-- Soundness of the antecedent loop: when it succeeds, every subgoal of the list lies in
the forward closure of the facts under the rules collected from its own subproof. -/
lemma bcAnte_sound (facts : Finset String)
    (bc : String → Finset String → Bool × List ProofStep × Finset String)
    (hbc : ∀ g v, (bc g v).1 = true →
      g ∈ (forward_chain facts (collectRules (bc g v).2.1)).1) :
    ∀ gs visited, (bcAnte bc gs visited).1 = true →
      ∀ g ∈ gs, g ∈ (forward_chain facts (collectRules (bcAnte bc gs visited).2.1)).1 := by
  intro gs
  induction gs with
  | nil => intro visited _ g hg; cases hg
  | cons g0 gs ih =>
      intro visited hok g hg
      by_cases h : (bc g0 visited).1 = true
      · have hres : (bcAnte bc (g0 :: gs) visited).2.1 =
            (bc g0 visited).2.1 ++ (bcAnte bc gs (bc g0 visited).2.2).2.1 := by
          rw [bcAnte_cons, if_pos h]
        have hok' : (bcAnte bc gs (bc g0 visited).2.2).1 = true := by
          rw [bcAnte_cons, if_pos h] at hok
          exact hok
        rw [hres, collectRules_append]
        rcases List.mem_cons.mp hg with h1 | h2
        · subst h1
          exact forward_chain_rules_mono facts _ _
            (fun r hr => List.mem_append.mpr (Or.inl hr)) (hbc g visited h)
        · exact forward_chain_rules_mono facts _ _
            (fun r hr => List.mem_append.mpr (Or.inr hr))
            (ih (bc g0 visited).2.2 hok' g h2)
      · rw [bcAnte_cons, if_neg h] at hok
        cases hok

/-- Soundness of the candidate-rule loop: a successful result puts the goal in the forward
closure of the facts under the rules collected from the returned proof. -/
lemma bcRules_sound (facts : Finset String)
    (bc : String → Finset String → Bool × List ProofStep × Finset String)
    (hbc : ∀ g v, (bc g v).1 = true →
      g ∈ (forward_chain facts (collectRules (bc g v).2.1)).1) (goal : String) :
    ∀ cands, (∀ r ∈ cands, r.consequent = goal) →
      ∀ visited, (bcRules bc goal cands visited).1 = true →
        goal ∈ (forward_chain facts (collectRules (bcRules bc goal cands visited).2.1)).1 := by
  intro cands
  induction cands with
  | nil => intro _ visited hok; rw [bcRules] at hok; cases hok
  | cons r rest ih =>
      intro hcons visited hok
      by_cases h : (bcAnte bc r.antecedents visited).1 = true
      · have hres : (bcRules bc goal (r :: rest) visited).2.1 =
            [ProofStep.inferred goal r (bcAnte bc r.antecedents visited).2.1] := by
          rw [bcRules_cons, if_pos h]
        rw [hres]
        have hcoll : collectRules
            [ProofStep.inferred goal r (bcAnte bc r.antecedents visited).2.1] =
            r :: collectRules (bcAnte bc r.antecedents visited).2.1 := by
          simp [collectRules]
        rw [hcoll]
        have hgoal : goal = r.consequent := (hcons r (List.mem_cons_self _ _)).symm
        rw [hgoal]
        apply forward_chain_closed facts _ r (List.mem_cons_self _ _)
        intro a ha
        have hmem := bcAnte_sound facts bc hbc r.antecedents visited h a ha
        exact forward_chain_rules_mono facts _ _
          (fun r' hr' => List.mem_cons_of_mem _ hr') hmem
      · rw [bcRules_cons, if_neg h] at hok ⊢
        exact ih (fun r' hr' => hcons r' (List.mem_cons_of_mem r hr')) _ hok

/-- Soundness of the recursive prover: a goal reported provable lies in the forward closure
of the facts under the rules collected from the returned proof. -/
lemma bcGoal_sound (rules : List Rule) (facts : Finset String) :
    ∀ fuel goal visited, (bcGoal rules facts fuel goal visited).1 = true →
      goal ∈ (forward_chain facts
        (collectRules (bcGoal rules facts fuel goal visited).2.1)).1 := by
  intro fuel
  induction fuel with
  | zero => intro goal visited hok; cases hok
  | succ f ih =>
      intro goal visited hok
      rw [bcGoal] at hok ⊢
      by_cases h1 : goal ∈ facts
      · rw [if_pos h1]
        have : collectRules [ProofStep.given goal] = [] := by simp [collectRules]
        rw [this]
        exact forward_chain_facts_subset facts [] h1
      · rw [if_neg h1] at hok ⊢
        by_cases h2 : goal ∈ visited
        · rw [if_pos h2] at hok; cases hok
        · rw [if_neg h2] at hok ⊢
          apply bcRules_sound facts _ (fun g v => ih g v) goal _ _ _ hok
          intro r hr
          exact of_decide_eq_true (List.mem_filter.mp hr).2

lemma bcAnte_rules_subset (rules : List Rule)
    (bc : String → Finset String → Bool × List ProofStep × Finset String)
    (hbc : ∀ g v, ∀ r ∈ collectRules (bc g v).2.1, r ∈ rules) :
    ∀ gs visited, ∀ r ∈ collectRules (bcAnte bc gs visited).2.1, r ∈ rules := by
  intro gs
  induction gs with
  | nil => intro visited r hr; simp [bcAnte, collectRules] at hr
  | cons g gs ih =>
      intro visited r hr
      by_cases h : (bc g visited).1 = true
      · rw [bcAnte_cons, if_pos h] at hr
        simp only [collectRules_append, List.mem_append] at hr
        rcases hr with h1 | h2
        · exact hbc g visited r h1
        · exact ih _ r h2
      · rw [bcAnte_cons, if_neg h] at hr
        exact hbc g visited r hr

lemma bcRules_rules_subset (rules : List Rule)
    (bc : String → Finset String → Bool × List ProofStep × Finset String)
    (hbc : ∀ g v, ∀ r ∈ collectRules (bc g v).2.1, r ∈ rules) (goal : String) :
    ∀ cands, (∀ r ∈ cands, r ∈ rules) →
      ∀ visited, ∀ r ∈ collectRules (bcRules bc goal cands visited).2.1, r ∈ rules := by
  intro cands
  induction cands with
  | nil => intro _ visited r hr; simp [bcRules, collectRules] at hr
  | cons r0 rest ih =>
      intro hcands visited r hr
      by_cases h : (bcAnte bc r0.antecedents visited).1 = true
      · rw [bcRules_cons, if_pos h] at hr
        simp only [collectRules, List.append_nil, List.mem_cons] at hr
        rcases hr with h1 | h2
        · subst h1; exact hcands r (List.mem_cons_self _ _)
        · exact bcAnte_rules_subset rules bc hbc r0.antecedents visited r h2
      · rw [bcRules_cons, if_neg h] at hr
        exact ih (fun r' hr' => hcands r' (List.mem_cons_of_mem r0 hr')) _ r hr

/-- Every rule recorded in a proof returned by the recursive prover comes from the rule
list. -/
lemma bcGoal_rules_subset (rules : List Rule) (facts : Finset String) :
    ∀ fuel goal visited, ∀ r ∈ collectRules (bcGoal rules facts fuel goal visited).2.1,
      r ∈ rules := by
  intro fuel
  induction fuel with
  | zero => intro goal visited r hr; simp [bcGoal, collectRules] at hr
  | succ f ih =>
      intro goal visited r hr
      rw [bcGoal] at hr
      by_cases h1 : goal ∈ facts
      · rw [if_pos h1] at hr; simp [collectRules] at hr
      · rw [if_neg h1] at hr
        by_cases h2 : goal ∈ visited
        · rw [if_pos h2] at hr; simp [collectRules] at hr
        · rw [if_neg h2] at hr
          apply bcRules_rules_subset rules _ (fun g v => ih g v) goal _ _ _ r hr
          intro r' hr'
          exact (List.mem_filter.mp hr').1

/-- Soundness of `backward_chain` at its top-level entry: replaying the collected rules. -/
lemma backward_chain_sound (goal : String) (facts : Finset String) (rules : List Rule)
    (h : (backward_chain goal facts rules).1 = true) :
    goal ∈ (forward_chain facts (collectRules (backward_chain goal facts rules).2)).1 :=
  bcGoal_sound rules facts _ goal ∅ h

/-- Python's built-in `str.strip()` as used by the route handlers of src/main.py: remove
leading and trailing whitespace.  Implemented over the string's character list so it
computes by kernel reduction. -/
def pyStrip (s : String) : String :=
  ⟨((s.data.dropWhile Char.isWhitespace).reverse.dropWhile Char.isWhitespace).reverse⟩

/-- Lexicographic code-point comparison of character lists: Python's string `<`. -/
def charListLt : List Char → List Char → Bool
  | [], [] => false
  | [], _ :: _ => true
  | _ :: _, [] => false
  | a :: as, b :: bs => if a < b then true else if b < a then false else charListLt as bs

/-- Python's string `<=`, the order `sorted` uses on strings. -/
def pyStrLe (a b : String) : Bool := !charListLt b.data a.data

/-- Python's `str.startswith`, on the character list so it kernel-computes. -/
def pyStartsWith (s p : String) : Bool := p.data.isPrefixOf s.data

lemma charListLt_asymm : ∀ x y, charListLt x y = true → charListLt y x = false := by
  intro x
  induction x with
  | nil =>
      intro y h
      cases y with
      | nil => simp [charListLt] at h
      | cons b bs => simp [charListLt]
  | cons a as ih =>
      intro y h
      cases y with
      | nil => simp [charListLt] at h
      | cons b bs =>
          rw [charListLt] at h ⊢
          by_cases hab : a < b
          · rw [if_neg (lt_asymm hab), if_pos hab]
          · rw [if_neg hab] at h
            by_cases hba : b < a
            · rw [if_pos hba] at h; simp at h
            · rw [if_neg hba] at h
              rw [if_neg hba, if_neg hab]
              exact ih bs h

lemma charListLt_conn : ∀ x y, charListLt x y = false → charListLt y x = false → x = y := by
  intro x
  induction x with
  | nil =>
      intro y h1 _
      cases y with
      | nil => rfl
      | cons b bs => simp [charListLt] at h1
  | cons a as ih =>
      intro y h1 h2
      cases y with
      | nil => simp [charListLt] at h2
      | cons b bs =>
          rw [charListLt] at h1 h2
          by_cases hab : a < b
          · rw [if_pos hab] at h1; simp at h1
          · by_cases hba : b < a
            · rw [if_pos hba] at h2; simp at h2
            · rw [if_neg hab, if_neg hba] at h1
              rw [if_neg hba, if_neg hab] at h2
              have hchar : a = b := le_antisymm (not_lt.mp hba) (not_lt.mp hab)
              rw [hchar, ih bs h1 h2]

lemma charListLt_trans :
    ∀ x y z, charListLt x y = true → charListLt y z = true → charListLt x z = true := by
  intro x
  induction x with
  | nil =>
      intro y z h1 h2
      cases y with
      | nil => simp [charListLt] at h1
      | cons b bs =>
          cases z with
          | nil => simp [charListLt] at h2
          | cons c cs => simp [charListLt]
  | cons a as ih =>
      intro y z h1 h2
      cases y with
      | nil => simp [charListLt] at h1
      | cons b bs =>
          cases z with
          | nil => simp [charListLt] at h2
          | cons c cs =>
              rw [charListLt] at h1 h2 ⊢
              by_cases hab : a < b
              · by_cases hbc : b < c
                · rw [if_pos (lt_trans hab hbc)]
                · rw [if_neg hbc] at h2
                  by_cases hcb : c < b
                  · rw [if_pos hcb] at h2; simp at h2
                  · have hbec : b = c := le_antisymm (not_lt.mp hcb) (not_lt.mp hbc)
                    rw [← hbec, if_pos hab]
              · rw [if_neg hab] at h1
                by_cases hba : b < a
                · rw [if_pos hba] at h1; simp at h1
                · rw [if_neg hba] at h1
                  have haeb : a = b := le_antisymm (not_lt.mp hba) (not_lt.mp hab)
                  subst haeb
                  by_cases hac : a < c
                  · rw [if_pos hac]
                  · rw [if_neg hac] at h2 ⊢
                    by_cases hca : c < a
                    · rw [if_pos hca] at h2; simp at h2
                    · rw [if_neg hca] at h2 ⊢
                      exact ih bs cs h1 h2

lemma pyStrLe_total (a b : String) : pyStrLe a b = true ∨ pyStrLe b a = true := by
  unfold pyStrLe
  by_cases h : charListLt b.data a.data = true
  · right
    rw [charListLt_asymm _ _ h]
    rfl
  · left
    rw [Bool.not_eq_true] at h
    rw [h]
    rfl

lemma pyStrLe_antisymm (a b : String) (h1 : pyStrLe a b = true) (h2 : pyStrLe b a = true) :
    a = b := by
  unfold pyStrLe at h1 h2
  rw [Bool.not_eq_true'] at h1 h2
  obtain ⟨x⟩ := a
  obtain ⟨y⟩ := b
  exact congrArg String.mk (charListLt_conn x y h2 h1)

lemma pyStrLe_trans (a b c : String) (h1 : pyStrLe a b = true) (h2 : pyStrLe b c = true) :
    pyStrLe a c = true := by
  unfold pyStrLe at h1 h2 ⊢
  rw [Bool.not_eq_true'] at h1 h2 ⊢
  by_cases hca : charListLt c.data a.data = true
  · exfalso
    by_cases hcb : charListLt c.data b.data = true
    · rw [hcb] at h2; cases h2
    · by_cases hbc : charListLt b.data c.data = true
      · have := charListLt_trans _ _ _ hbc hca
        rw [this] at h1; cases h1
      · rw [Bool.not_eq_true] at hcb hbc
        have := charListLt_conn _ _ hbc hcb
        rw [this] at h1
        rw [h1] at hca; cases hca
  · rw [Bool.not_eq_true] at hca; exact hca

/-- Insertion into a sorted list, the building block of the model of Python's `sorted`. -/
def sortedInsert (a : String) : List String → List String
  | [] => [a]
  | b :: bs => if pyStrLe a b = true then a :: b :: bs else b :: sortedInsert a bs

lemma sortedInsert_left_comm (a b : String) :
    ∀ l, sortedInsert a (sortedInsert b l) = sortedInsert b (sortedInsert a l) := by
  intro l
  induction l with
  | nil =>
      by_cases hab : pyStrLe a b = true
      · by_cases hba : pyStrLe b a = true
        · rw [pyStrLe_antisymm a b hab hba]
        · simp [sortedInsert, hab, hba]
      · have hba : pyStrLe b a = true := (pyStrLe_total a b).resolve_left hab
        simp [sortedInsert, hab, hba]
  | cons c cs ih =>
      by_cases hab : pyStrLe a b = true
      · by_cases hba : pyStrLe b a = true
        · rw [pyStrLe_antisymm a b hab hba]
        · by_cases hbc : pyStrLe b c = true
          · have hac : pyStrLe a c = true := pyStrLe_trans a b c hab hbc
            simp [sortedInsert, hbc, hac, hab, hba]
          · by_cases hac : pyStrLe a c = true
            · simp [sortedInsert, hbc, hac, hab, hba]
            · simp [sortedInsert, hbc, hac, hab, hba, ih]
      · have hba : pyStrLe b a = true := (pyStrLe_total a b).resolve_left hab
        by_cases hac : pyStrLe a c = true
        · have hbc : pyStrLe b c = true := pyStrLe_trans b a c hba hac
          simp [sortedInsert, hbc, hac, hab, hba]
        · by_cases hbc : pyStrLe b c = true
          · simp [sortedInsert, hbc, hac, hab, hba]
          · simp [sortedInsert, hbc, hac, hab, hba, ih]

instance sortedInsertLeftCommutative : LeftCommutative sortedInsert :=
  ⟨fun a b l => sortedInsert_left_comm a b l⟩

/-- Python's built-in `sorted(list(s))` for a set `s` of strings: fold sorted insertion over
the set.  Well defined because `sortedInsert` is left-commutative, and kernel-computable. -/
def finsetSorted (s : Finset String) : List String :=
  Multiset.foldr sortedInsert [] s.val

/-- `FORWARD_RULES` of src/main.py lines 27-36: the permissive rule set used by forward
chaining. -/
def FORWARD_RULES : List Rule :=
  [⟨["battery_low"], "power_unstable", some "Low battery can cause unstable power"⟩,
   ⟨["power_unstable"], "system_restarts", some "Unstable power can trigger restarts"⟩,
   ⟨["no_wifi", "router_off"], "network_down",
     some "No WiFi and router off implies network down"⟩,
   ⟨["network_down"], "cannot_sync", some "If the network is down, syncing fails"⟩,
   ⟨["power_unstable"], "fault_power_supply",
     some "Unstable power suggests power supply fault"⟩,
   ⟨["battery_low", "charging_not_working"], "fault_battery",
     some "Low battery + charging not working suggests battery fault"⟩,
   ⟨["network_down"], "fault_network", some "Network down suggests network fault"⟩]

/-- `BACKWARD_RULES` of src/main.py lines 39-51: the stricter rule set used by backward
chaining. -/
def BACKWARD_RULES : List Rule :=
  [⟨["battery_low"], "power_unstable", some "Low battery can cause unstable power"⟩,
   ⟨["mains_fluctuation"], "power_unstable",
     some "Mains fluctuation can cause unstable power"⟩,
   ⟨["power_unstable"], "system_restarts", some "Unstable power can trigger restarts"⟩,
   ⟨["interference", "weak_signal"], "no_wifi",
     some "Interference and weak signal cause Wi‑Fi loss"⟩,
   ⟨["no_wifi", "router_off"], "network_down",
     some "Router off with no Wi‑Fi implies network is down"⟩,
   ⟨["network_down"], "cannot_sync", some "No network means syncing fails"⟩,
   ⟨["power_unstable", "system_restarts"], "fault_power_supply",
     some "Unstable power AND restarts indicate power supply fault"⟩,
   ⟨["battery_low", "charging_not_working", "old_battery"], "fault_battery",
     some "Low, not charging, and aged battery indicates battery fault"⟩,
   ⟨["no_wifi", "router_off", "cannot_sync"], "fault_network",
     some "No Wi‑Fi, router off, and cannot sync indicates network fault"⟩]

/-- The response of the `/diagnose/forward` route (src/main.py lines 166-176). -/
structure DiagnoseForwardResult where
  input_facts : List String
  derived_facts : List String
  trace : List Rule
  faults : List String

/-- `diagnose_forward` of src/main.py lines 166-176: strip and drop blank input atoms, run
forward chaining over `FORWARD_RULES`, and report the sorted input facts, the sorted newly
derived facts, the trace, and the sorted facts carrying the fault marker `"fault_"`
(the module constant `FAULT_PREFIX`). -/
def diagnose_forward (reqFacts : List String) : DiagnoseForwardResult :=
  { input_facts := finsetSorted
      ((reqFacts.filter fun a => a ≠ "" ∧ pyStrip a ≠ "").map pyStrip).toFinset
  , derived_facts := finsetSorted
      ((forward_chain
          ((reqFacts.filter fun a => a ≠ "" ∧ pyStrip a ≠ "").map pyStrip).toFinset
          FORWARD_RULES).1 \
        ((reqFacts.filter fun a => a ≠ "" ∧ pyStrip a ≠ "").map pyStrip).toFinset)
  , trace := (forward_chain
      ((reqFacts.filter fun a => a ≠ "" ∧ pyStrip a ≠ "").map pyStrip).toFinset
      FORWARD_RULES).2
  , faults := finsetSorted ((forward_chain
      ((reqFacts.filter fun a => a ≠ "" ∧ pyStrip a ≠ "").map pyStrip).toFinset
      FORWARD_RULES).1.filter fun f => pyStartsWith f "fault_" = true) }

/-- A rule set rigged so that one proof needs the same non-fact intermediate atom `M` in two
sibling branches: `X` needs `A` and `B`, each of which needs `M`, and `M` follows from the
fact `F`.  Forward chaining derives `X` from `F`, but backward chaining fails on `X`
because the first sibling branch leaves `M` in the shared visited set. -/
def siblingRules : List Rule :=
  [⟨["A", "B"], "X", none⟩, ⟨["M"], "A", none⟩, ⟨["M"], "B", none⟩, ⟨["F"], "M", none⟩]

/-- The two-rule dependency cycle of the spec's cycle-safety test: `A` requires `B` and `B`
requires `A`. -/
def cycRules : List Rule :=
  [⟨["B"], "A", none⟩, ⟨["A"], "B", none⟩]

/-- Two rules with the same consequent `c`, fired from different antecedents. -/
def ruleAC : Rule := ⟨["a"], "c", none⟩

/-- See `ruleAC`. -/
def ruleBC : Rule := ⟨["b"], "c", none⟩

/-- Any step type is one of the four the code can emit. -/
lemma stepTypeName_mem (s : ProofStep) :
    stepTypeName s ∈ ["given", "cycle", "inferred", "not-provable"] := by
  cases s <;> simp [stepTypeName]

/-- C1 (counterexample): the claimed completeness direction fails.  With `siblingRules` and
the single fact `F`, forward chaining derives the goal `X`, yet `backward_chain` returns
`provable = false` for `X`: the first sibling branch of `X`'s rule leaves the intermediate
atom `M` in the shared visited set, so the second branch hits a spurious cycle. -/
theorem C1_counterexample :
    "X" ∈ (forward_chain {"F"} siblingRules).1 ∧
      (backward_chain "X" {"F"} siblingRules).1 = false := by
  constructor
  · decide
  · decide

/-- C1 (amended): only the soundness direction holds.  Whenever `backward_chain` reports
`provable = true`, the goal is derivable: it lies in the set forward chaining computes from
the same facts and rules.  The converse fails (`C1_counterexample`). -/
theorem C1_soundness (goal : String) (facts : Finset String) (rules : List Rule)
    (h : (backward_chain goal facts rules).1 = true) :
    goal ∈ (forward_chain facts rules).1 := by
  have hsound := bcGoal_sound rules facts _ goal ∅ h
  have hsub : ∀ r ∈ collectRules (backward_chain goal facts rules).2, r ∈ rules :=
    fun r hr => bcGoal_rules_subset rules facts _ goal ∅ r hr
  exact forward_chain_rules_mono facts _ rules hsub hsound

/-- C1 (witness): a concrete successful backward proof of `g` from the rule `p, q → g`. -/
theorem C1_soundness_witness :
    "g" ∈ (forward_chain {"p", "q"} [⟨["p", "q"], "g", none⟩]).1 :=
  C1_soundness "g" {"p", "q"} [⟨["p", "q"], "g", none⟩] (by decide)

/-- C2 (counterexample): sibling branches cannot each prove the same non-fact intermediate
atom.  Each of `A` and `B` alone is provable from `F` (both via `M`), but `X`, whose single
rule needs `A` and `B` as sibling antecedents, is not provable: the visited entry for `M`
made by the `A` branch makes the `B` branch fail with a cycle, so the visited set is not
path-local. -/
theorem C2_counterexample :
    (backward_chain "A" {"F"} siblingRules).1 = true ∧
      (backward_chain "B" {"F"} siblingRules).1 = true ∧
      (backward_chain "X" {"F"} siblingRules).1 = false := by
  refine ⟨by decide, by decide, by decide⟩

/-- C2 (amended): the visited set is shared across the entire top-level search and entries
are never removed, so a `cycle` step is produced whenever the subgoal was already expanded
anywhere earlier in the search — including completed or failed sibling branches — not only
when it is an ancestor on the current proof path.  First conjunct: the visited set only
grows through any call.  Second conjunct: any non-fact subgoal already in the shared
visited set immediately yields a `cycle` step. -/
theorem C2_visited_not_path_local :
    (∀ (rules : List Rule) (facts : Finset String) (fuel : Nat) (goal : String)
        (visited : Finset String), visited ⊆ (bcGoal rules facts fuel goal visited).2.2) ∧
      (∀ (rules : List Rule) (facts : Finset String) (fuel : Nat) (goal : String)
          (visited : Finset String), goal ∉ facts → goal ∈ visited →
        bcGoal rules facts (fuel + 1) goal visited =
          (false, ([ProofStep.cycle goal], visited))) := by
  constructor
  · intro rules facts fuel goal visited
    exact bcGoal_visited_mono rules facts fuel goal visited
  · intro rules facts fuel goal visited h1 h2
    rw [bcGoal, if_neg h1, if_pos h2]

/-- C2 (witness): the cycle branch fires on a concrete already-visited subgoal. -/
theorem C2_visited_not_path_local_witness :
    bcGoal [] ∅ 1 "g" {"g"} = (false, ([ProofStep.cycle "g"], {"g"})) :=
  C2_visited_not_path_local.2 [] ∅ 0 "g" {"g"} (by decide) (by decide)

/-- C3 (counterexample): reordering the rule list preserves the derived set but can change
the trace by more than order.  With facts `{a, b}` and two rules both concluding `c`, the
first rule in list order fires and the other never does, so the two orderings record
different rules in their traces — the traces are not permutations of each other. -/
theorem C3_counterexample :
    (forward_chain {"a", "b"} [ruleAC, ruleBC]).1 =
        (forward_chain {"a", "b"} [ruleBC, ruleAC]).1 ∧
      ¬ (forward_chain {"a", "b"} [ruleAC, ruleBC]).2.Perm
          (forward_chain {"a", "b"} [ruleBC, ruleAC]).2 := by
  refine ⟨by decide, by decide⟩

/-- C3 (amended): the derived set of `forward_chain` is the least fixed point: it contains
the input facts, is closed under every rule, is contained in every closed superset of the
facts, and is invariant under permutation of the rule list.  The traces of two orderings,
however, may differ in which rule fired for a consequent, not only in entry order
(`C3_counterexample`). -/
theorem C3_least_fixed_point (facts : Finset String) (rules : List Rule) :
    facts ⊆ (forward_chain facts rules).1 ∧
      ruleClosed rules (forward_chain facts rules).1 ∧
      (∀ S, facts ⊆ S → ruleClosed rules S → (forward_chain facts rules).1 ⊆ S) ∧
      (∀ rules', rules.Perm rules' →
        (forward_chain facts rules').1 = (forward_chain facts rules).1) :=
  ⟨forward_chain_facts_subset facts rules, forward_chain_closed facts rules,
   fun S hS hcl => forward_chain_minimal facts rules S hS hcl,
   fun rules' hperm => (forward_chain_perm facts rules rules' hperm).symm⟩

/-- C3 (witness): minimality and permutation invariance at a concrete instance. -/
theorem C3_least_fixed_point_witness :
    (forward_chain {"a"} [ruleAC]).1 ⊆ {"a", "c"} ∧
      (forward_chain {"a"} [ruleAC]).1 = (forward_chain {"a"} [ruleAC]).1 :=
  ⟨(C3_least_fixed_point {"a"} [ruleAC]).2.2.1 {"a", "c"} (by decide) (by decide),
   (C3_least_fixed_point {"a"} [ruleAC]).2.2.2 [ruleAC] (List.Perm.refl _)⟩

/-- C4: soundness of backward chaining.  When `backward_chain` reports `provable = true`,
running forward chaining over the original facts with exactly the rules recorded in the
returned proof's `inferred` steps rederives the goal. -/
theorem C4_soundness_replay (goal : String) (facts : Finset String) (rules : List Rule)
    (h : (backward_chain goal facts rules).1 = true) :
    goal ∈ (forward_chain facts (collectRules (backward_chain goal facts rules).2)).1 :=
  backward_chain_sound goal facts rules h

/-- C4 (witness): replaying a concrete successful proof. -/
theorem C4_soundness_replay_witness :
    "g" ∈ (forward_chain {"p", "q"}
      (collectRules (backward_chain "g" {"p", "q"} [⟨["p", "q"], "g", none⟩]).2)).1 :=
  C4_soundness_replay "g" {"p", "q"} [⟨["p", "q"], "g", none⟩] (by decide)

/-- C5 (counterexample): on the cyclic rule set `[B → A, A → B]` with no facts the engine
terminates and returns `provable = false`, but the returned proof is the single
`not-provable` step and contains no `cycle` step anywhere: the cycle step arises inside the
failed rule attempt, whose subproof is discarded when line 126 of src/main.py builds the
failure result. -/
theorem C5_counterexample :
    (backward_chain "A" ∅ cycRules).1 = false ∧
      (backward_chain "A" ∅ cycRules).2 = [ProofStep.notProvable "A"] ∧
      hasCycleStep (backward_chain "A" ∅ cycRules).2 = false := by
  refine ⟨by decide, rfl, ?_⟩
  have h : (backward_chain "A" ∅ cycRules).2 = [ProofStep.notProvable "A"] := rfl
  rw [h]
  simp [hasCycleStep]

/-- C5 (amended): cycle safety holds for termination and the `false` verdict.  On the
cyclic rule set the recursion stabilizes from fuel 3 on — it does not recurse forever — and
returns `provable = false`; the returned proof is the single `not-provable` step, the
internal cycle detection having pruned the circular branch without surfacing a `cycle` step
in the output. -/
theorem C5_cycle_safety :
    (∀ fuel, 3 ≤ fuel → (bcGoal cycRules ∅ fuel "A" ∅).1 = false ∧
        (bcGoal cycRules ∅ fuel "A" ∅).2.1 = [ProofStep.notProvable "A"]) ∧
      backward_chain "A" ∅ cycRules = (false, [ProofStep.notProvable "A"]) := by
  constructor
  · intro fuel hf
    have hcard : ((insert "A" (atomUniverse cycRules)) \ (∅ : Finset String)).card = 2 := by
      decide
    have hst := bcGoal_stable cycRules ∅ fuel 3 "A" ∅ (by omega) (by omega)
    rw [hst]
    exact ⟨by decide, rfl⟩
  · rfl

/-- C5 (witness): the stabilized result at the smallest sufficient fuel. -/
theorem C5_cycle_safety_witness :
    (bcGoal cycRules ∅ 3 "A" ∅).1 = false ∧
      (bcGoal cycRules ∅ 3 "A" ∅).2.1 = [ProofStep.notProvable "A"] :=
  C5_cycle_safety.1 3 (le_refl 3)

/-- C6: termination structure of `forward_chain`: (1) the known set grows monotonically
through a pass; (2) a pass that set `applied` strictly enlarged the known set — so each
outer pass either adds an atom or is the last; (3) the loop's result is the same for every
fuel beyond the number of not-yet-known distinct consequents, i.e. that many passes
suffice; (4) the number of fact-adding passes is at most the number of distinct consequents
of the rule set. -/
theorem C6_termination :
    (∀ (rules : List Rule) (known : Finset String) (trace : List Rule),
        known ⊆ (forwardPass rules known trace).1) ∧
      (∀ (rules : List Rule) (known : Finset String) (trace : List Rule),
        (forwardPass rules known trace).2.2 = true →
          known ⊂ (forwardPass rules known trace).1) ∧
      (∀ (rules : List Rule) (known : Finset String) (trace : List Rule) (fuel₁ fuel₂ : Nat),
        ((rules.map Rule.consequent).toFinset \ known).card < fuel₁ →
        ((rules.map Rule.consequent).toFinset \ known).card < fuel₂ →
        forwardLoopFuel fuel₁ rules known trace = forwardLoopFuel fuel₂ rules known trace) ∧
      (∀ (rules : List Rule) (known : Finset String),
        forwardPassCount rules known ≤ ((rules.map Rule.consequent).toFinset).card) := by
  refine ⟨?_, ?_, ?_, ?_⟩
  · intro rules known trace
    exact foldl_forwardStep_known_mono rules (known, (trace, false))
  · intro rules known trace h
    exact foldl_forwardStep_growth rules (known, (trace, false)) rfl h
  · intro rules known trace fuel₁ fuel₂ h1 h2
    exact forwardLoopFuel_stable rules fuel₁ fuel₂ known trace h1 h2
  · intro rules known
    calc forwardPassCount rules known
        ≤ ((rules.map Rule.consequent).toFinset \ known).card :=
          forwardPassCountFuel_le rules _ known
      _ ≤ ((rules.map Rule.consequent).toFinset).card :=
          Finset.card_le_card (Finset.sdiff_subset)

/-- C6 (witness): concrete pass growth and loop-fuel stability. -/
theorem C6_termination_witness :
    ({"a"} : Finset String) ⊂ (forwardPass [ruleAC] {"a"} []).1 ∧
      forwardLoopFuel 2 [ruleAC] {"a"} [] = forwardLoopFuel 7 [ruleAC] {"a"} [] :=
  ⟨C6_termination.2.1 [ruleAC] {"a"} [] (by decide),
   C6_termination.2.2.1 [ruleAC] {"a"} [] 2 7 (by decide) (by decide)⟩

/-- C7: monotonicity of forward chaining in the fact set — enlarging the input facts can
only enlarge the derived set. -/
theorem C7_monotone (rules : List Rule) (facts facts' : Finset String)
    (h : facts ⊆ facts') :
    (forward_chain facts rules).1 ⊆ (forward_chain facts' rules).1 :=
  forward_chain_minimal facts rules _
    (Finset.Subset.trans h (forward_chain_facts_subset facts' rules))
    (forward_chain_closed facts' rules)

/-- C7 (witness): monotonicity at a concrete fact-set inclusion. -/
theorem C7_monotone_witness :
    (forward_chain {"a"} [ruleAC]).1 ⊆ (forward_chain {"a", "b"} [ruleAC]).1 :=
  C7_monotone [ruleAC] {"a"} {"a", "b"} (by decide)

/-- C8: the spec's scenario 1.  From the single fact `battery_low`, forward chaining over
`FORWARD_RULES` derives exactly `power_unstable`, `system_restarts` and
`fault_power_supply` beyond the input, and the forward-diagnose route reports
`faults = ["fault_power_supply"]`. -/
theorem C8_scenario1 :
    (forward_chain {"battery_low"} FORWARD_RULES).1 =
        {"battery_low", "power_unstable", "system_restarts", "fault_power_supply"} ∧
      (diagnose_forward ["battery_low"]).derived_facts =
        ["fault_power_supply", "power_unstable", "system_restarts"] ∧
      (diagnose_forward ["battery_low"]).faults = ["fault_power_supply"] := by
  refine ⟨by decide, by decide, by decide⟩

/-- C9: trace invariant of `forward_chain`: the trace's consequents are pairwise distinct,
none of them is an input fact, the known set is exactly the input facts united with the
trace's consequents, and hence the number of newly derived facts equals the trace length.
(The input fact set is never mutated: the embedding is a pure function of it.) -/
theorem C9_trace_invariant (facts : Finset String) (rules : List Rule) :
    ((forward_chain facts rules).2.map Rule.consequent).Nodup ∧
      (∀ r ∈ (forward_chain facts rules).2, r.consequent ∉ facts) ∧
      (forward_chain facts rules).1 =
        facts ∪ ((forward_chain facts rules).2.map Rule.consequent).toFinset ∧
      ((forward_chain facts rules).1 \ facts).card = (forward_chain facts rules).2.length := by
  have h := forward_chain_traceInv facts rules
  unfold traceInv at h
  obtain ⟨hk, hnd, hnf⟩ := h
  refine ⟨hnd, hnf, hk, ?_⟩
  have hdisj : ∀ x ∈ ((forward_chain facts rules).2.map Rule.consequent).toFinset,
      x ∉ facts := by
    intro x hx
    rw [List.mem_toFinset, List.mem_map] at hx
    obtain ⟨r, hr, hrx⟩ := hx
    rw [← hrx]
    exact hnf r hr
  have hsd : (forward_chain facts rules).1 \ facts =
      ((forward_chain facts rules).2.map Rule.consequent).toFinset := by
    rw [hk]
    ext x
    constructor
    · intro hx
      rcases Finset.mem_sdiff.mp hx with ⟨h1, h2⟩
      rcases Finset.mem_union.mp h1 with h3 | h4
      · exact absurd h3 h2
      · exact h4
    · intro hx
      exact Finset.mem_sdiff.mpr ⟨Finset.mem_union.mpr (Or.inr hx), hdisj x hx⟩
  rw [hsd, List.toFinset_card_of_nodup hnd, List.length_map]

/-- C9 (witness): the no-input-fact clause at a concrete trace entry. -/
theorem C9_trace_invariant_witness :
    (ruleAC : Rule).consequent ∉ ({"a"} : Finset String) :=
  (C9_trace_invariant {"a"} [ruleAC]).2.1 ruleAC (by decide)

/-- C10: proof-shape invariant.  At any positive fuel — in particular at the top-level
entry `backward_chain` — the returned proof list contains exactly one step, that step's
`goal` field is the queried goal, and its `type` is one of `given`, `cycle`, `inferred`,
`not-provable` (the four constructors of `ProofStep`). -/
theorem C10_proof_shape :
    (∀ (rules : List Rule) (facts : Finset String) (fuel : Nat) (goal : String)
        (visited : Finset String), 1 ≤ fuel →
      ∃ s, (bcGoal rules facts fuel goal visited).2.1 = [s] ∧ stepGoal s = goal ∧
        stepTypeName s ∈ ["given", "cycle", "inferred", "not-provable"]) ∧
      (∀ (goal : String) (facts : Finset String) (rules : List Rule),
        ∃ s, (backward_chain goal facts rules).2 = [s] ∧ stepGoal s = goal ∧
          stepTypeName s ∈ ["given", "cycle", "inferred", "not-provable"]) := by
  constructor
  · intro rules facts fuel goal visited hf
    obtain ⟨s, h1, h2⟩ := bcGoal_shape rules facts fuel goal visited hf
    exact ⟨s, h1, h2, stepTypeName_mem s⟩
  · intro goal facts rules
    obtain ⟨s, h1, h2⟩ := bcGoal_shape rules facts
      ((insert goal (atomUniverse rules)).card + 1) goal ∅
      (Nat.succ_le_succ (Nat.zero_le _))
    exact ⟨s, h1, h2, stepTypeName_mem s⟩

/-- C10 (witness): the shape at a concrete call. -/
theorem C10_proof_shape_witness :
    ∃ s, (bcGoal [] ∅ 1 "g" ∅).2.1 = [s] ∧ stepGoal s = "g" ∧
      stepTypeName s ∈ ["given", "cycle", "inferred", "not-provable"] :=
  C10_proof_shape.1 [] ∅ 1 "g" ∅ (le_refl 1)
